import Mathlib

/-!
GitUserAct: the event formatter and the worker pipeline of `main.go`.

A shallow embedding of `src/main.go`.

* Go strings are byte sequences; `GoString` is `List UInt8`.  String literals
  of the source are turned into their UTF-8 bytes by `str`.
* A Go run-time panic is an `Except.error`; the only one the formatter can
  raise is the slice-bounds panic of `actionName[:1]`.
* The goroutines of `main` (the dispatcher/collector, the workers and the
  closer) are embedded as a labelled transition system: `step` executes one
  atomic action of one goroutine, a schedule is a list of actions.
-/

namespace GitUserAct

/-! ## Strings -/

/-- A Go `string`: an immutable sequence of bytes. -/
abbrev GoString := List UInt8

/-- The bytes of a string literal of the source (Go source text is UTF-8). -/
def str (s : String) : GoString := s.toUTF8.data.toList

/-- The package-level colour variable `Green = "\033[32m"`. -/
def Green : GoString := str "\x1b[32m"

/-- The package-level colour variable `Yellow = "\033[33m"`. -/
def Yellow : GoString := str "\x1b[33m"

/-- The package-level colour variable `Blue = "\033[34m"`. -/
def Blue : GoString := str "\x1b[34m"

/-- The package-level colour variable `Reset = "\033[0m"`. -/
def Reset : GoString := str "\x1b[0m"

/-- Worker of `fmtInt`: emits the decimal digits of `n`, least significant
first, in front of `acc`.  `fuel` bounds the number of digits. -/
def fmtIntAux : Nat → Nat → GoString → GoString
  | 0, _, acc => acc
  | fuel + 1, n, acc =>
    let acc1 := (48 + n % 10).toUInt8 :: acc
    if n / 10 = 0 then acc1 else fmtIntAux fuel (n / 10) acc1

/-- What `fmt.Sprintf` writes for the verb `%v` applied to a non-negative
`int` (here always a `len(...)`): its decimal digits, no sign, no padding. -/
def fmtInt (n : Nat) : GoString := fmtIntAux (n + 1) n []

/-- One step of `parseDec`: appends the decimal digit `c` to the number read
so far; `none` when `c` is not one of `0`..`9`. -/
def parseStep (acc : Option Nat) (c : UInt8) : Option Nat :=
  acc.bind fun a => if 48 ≤ c.toNat ∧ c.toNat ≤ 57 then some (10 * a + (c.toNat - 48)) else none

/-- Reads a string of ASCII decimal digits back as a number (most significant
digit first); `none` when a byte is not a digit or the string is empty. -/
def parseDec (s : GoString) : Option Nat :=
  if s = [] then none else s.foldl parseStep (some 0)

/-- The function `strings.ToUpper` of the Go standard library applied to the
one-byte string `[c]`, the only kind of string `issuesEvent` passes to it
(`actionName[:1]`).  An ASCII byte takes the ASCII path of `ToUpper`: a lower
case letter `a`..`z` has `'a' - 'A'` subtracted, any other byte is kept.  A
byte `≥ 0x80` alone is not valid UTF-8: `ToUpper` falls to `strings.Map`, which
decodes it as `utf8.RuneError` of width 1 and writes U+FFFD, the three bytes
`EF BF BD`. -/
def ToUpperByte (c : UInt8) : GoString :=
  if c < 0x80 then
    if 97 ≤ c ∧ c ≤ 122 then [c - 32] else [c]
  else [0xEF, 0xBF, 0xBD]

/-! ## Data model -/

/-- The anonymous struct of the field `Repo` of `Event`. -/
structure Repo where
  Name : GoString
  deriving DecidableEq, Repr

/-- The anonymous struct of the field `Payload` of `Event`.  An entry of
`Commits` is a decoded JSON object (`map[string]interface{}`); the program
only counts the entries, so their type is left as the parameter `Commit`. -/
structure Payload (Commit : Type) where
  Action : GoString
  Commits : List Commit
  deriving DecidableEq, Repr

/-- The struct `Event`.  The field `Type` is spelled `Type_`. -/
structure Event (Commit : Type) where
  Type_ : GoString
  Repo : Repo
  Payload : Payload Commit
  deriving DecidableEq, Repr

/-- Run-time panics of the Go program. -/
inductive Panic where
  /-- The panic `slice bounds out of range [:hi] with length len`. -/
  | sliceBounds (hi len : Nat)
  /-- The panic `send on closed channel`. -/
  | sendOnClosed
  /-- The panic `sync: negative WaitGroup counter`. -/
  | negativeCounter
  deriving DecidableEq, Repr

variable {Commit : Type}

/-! ## The formatter -/

/-- The function `pushEvent`:
`Sprintf("Pushed %s%v commits%s to %s", Blue, len(commits), Reset, name)`,
or `""` when there is no commit. -/
def pushEvent (e : Event Commit) : GoString :=
  if e.Payload.Commits.length = 0 then []
  else
    str "Pushed " ++ Blue ++ fmtInt e.Payload.Commits.length ++ str " commits" ++ Reset
      ++ str " to " ++ e.Repo.Name

/-- The function `watchEvent`: `Sprintf("%sStarred%s %s", Green, Reset, name)`. -/
def watchEvent (e : Event Commit) : GoString :=
  Green ++ str "Starred" ++ Reset ++ str " " ++ e.Repo.Name

/-- The function `issuesEvent`.  `actionName[:1]` panics on the empty string;
otherwise `actionName[:1]` is the first byte `c` and `actionName[1:]` the
remaining bytes.  `fmt.Sprint` of two string operands writes them without a
separator.  The result is
`Sprintf("%s%s%s an issue in %s", Yellow, actionName, Reset, name)`. -/
def issuesEvent (e : Event Commit) : Except Panic GoString :=
  match e.Payload.Action with
  | [] => .error (.sliceBounds 1 0)
  | c :: rest =>
    let actionName := ToUpperByte c ++ rest
    .ok (Yellow ++ actionName ++ Reset ++ str " an issue in " ++ e.Repo.Name)

/-- The function `forkEvent`: `Sprintf("%sForked%s %s", Green, Reset, name)`. -/
def forkEvent (e : Event Commit) : GoString :=
  Green ++ str "Forked" ++ Reset ++ str " " ++ e.Repo.Name

/-- The function `eventFormatter`: the `switch` on `e.Type`. -/
def eventFormatter (e : Event Commit) : Except Panic GoString :=
  if e.Type_ = str "PushEvent" then .ok (pushEvent e)
  else if e.Type_ = str "WatchEvent" then .ok (watchEvent e)
  else if e.Type_ = str "IssuesEvent" then issuesEvent e
  else if e.Type_ = str "ForkEvent" then .ok (forkEvent e)
  else .ok []

/-! ## The pipeline of `main`

The code of `main` from `eventsCh := make(chan Event)` on, and `worker`, as a
transition system over the goroutines.  The batch `events` (the decoded
response) and `numWorkers` are parameters; the program sets `numWorkers := 4`.
-/

/-- Where the goroutine running `main` stands. -/
inductive MainPc where
  /-- At the head of `for i := 0; i < numWorkers; i++`, with `i` workers started. -/
  | spawn (i : Nat)
  /-- At the head of `for _, data := range events`, with `k` events sent. -/
  | dispatch (k : Nat)
  /-- After `close(eventsCh)`, before `go func() { wg.Wait(); close(resultsCh) }()`. -/
  | startCloser
  /-- In `for msg := range resultsCh`. -/
  | collect
  /-- The range loop over `resultsCh` ended: `main` returned, the process exits. -/
  | done
  deriving DecidableEq, Repr

/-- Where a goroutine running `worker` stands. -/
inductive WorkerPc (Commit : Type) where
  /-- Receiving at `for e := range eventsCh`. -/
  | recv
  /-- Holding the received event, before `message := eventFormatter(e)`. -/
  | format (e : Event Commit)
  /-- At `resultsCh <- message` with a non-empty message. -/
  | send (message : GoString)
  /-- Out of the loop, with the deferred `wg.Done()` still to run. -/
  | leave
  /-- Returned, `wg.Done()` called. -/
  | exited

/-- Where the goroutine `func() { wg.Wait(); close(resultsCh) }` stands. -/
inductive CloserPc where
  /-- Not started yet. -/
  | idle
  /-- In `wg.Wait()`. -/
  | wait
  /-- Past `wg.Wait()`, before `close(resultsCh)`. -/
  | close
  /-- Returned, `resultsCh` closed. -/
  | exited
  deriving DecidableEq, Repr

/-- The state of the running program: the goroutines, the counter of the
global `wg`, the two channels, and the messages the loop
`for msg := range resultsCh` has received so far, in order of arrival (each
one is printed as `fmt.Println("-", msg)` on arrival).  `eventsCh` is
unbuffered and so holds nothing; `results` is the buffer of `resultsCh`,
oldest message first. -/
structure State (Commit : Type) where
  main : MainPc
  workers : List (WorkerPc Commit)
  closer : CloserPc
  wg : Nat
  eventsClosed : Bool
  results : List GoString
  resultsClosed : Bool
  collected : List GoString
  panicked : Option Panic

/-- The state at `eventsCh := make(chan Event)`. -/
def State.init : State Commit :=
  { main := .spawn 0, workers := [], closer := .idle, wg := 0, eventsClosed := false,
    results := [], resultsClosed := false, collected := [], panicked := none }

/-- One atomic action of the program; the scheduler picks which one runs. -/
inductive Action where
  /-- The goroutine of `main` advances on its own. -/
  | main
  /-- The send `eventsCh <- data` of `main` meets the receive of worker `j`. -/
  | handOver (j : Nat)
  /-- Worker `j` advances on its own. -/
  | worker (j : Nat)
  /-- The send `resultsCh <- message` of worker `j` meets the receive of
  `main` waiting on the empty buffer. -/
  | direct (j : Nat)
  /-- The closer goroutine advances. -/
  | closer
  deriving DecidableEq, Repr

/-- Replaces the program counter of worker `j`. -/
def State.setWorker (s : State Commit) (j : Nat) (w : WorkerPc Commit) : State Commit :=
  { s with workers := s.workers.set j w }

/-- A step of `main` alone (lines 126-144): start a worker (`wg.Add(1)`, `go
worker(...)`), leave the start loop, `close(eventsCh)` after the last event,
start the closer, take the oldest buffered message, or end the range loop on
the closed and empty `resultsCh`.  A send on `eventsCh` is not a step of `main`
alone (see `stepHandOver`). -/
def stepMain (numWorkers : Nat) (events : List (Event Commit)) (s : State Commit) :
    Option (State Commit) :=
  match s.main with
  | .spawn i =>
    if i < numWorkers then
      some { s with wg := s.wg + 1, workers := s.workers ++ [.recv], main := .spawn (i + 1) }
    else some { s with main := .dispatch 0 }
  | .dispatch k =>
    if k < events.length then none
    else some { s with eventsClosed := true, main := .startCloser }
  | .startCloser => some { s with closer := .wait, main := .collect }
  | .collect =>
    match s.results with
    | msg :: rest => some { s with results := rest, collected := s.collected ++ [msg] }
    | [] => if s.resultsClosed then some { s with main := .done } else none
  | .done => none

/-- The send `eventsCh <- data` (line 132) on the unbuffered channel: it
completes together with the receive of a worker waiting in
`for e := range eventsCh`. -/
def stepHandOver (events : List (Event Commit)) (s : State Commit) (j : Nat) :
    Option (State Commit) :=
  match s.main, s.workers[j]? with
  | .dispatch k, some .recv =>
    match events[k]? with
    | some data => some { s.setWorker j (.format data) with main := .dispatch (k + 1) }
    | none => none
  | _, _ => none

/-- A step of worker `j` alone (lines 71-79): end the loop once `eventsCh` is
closed, format the held event and test `message != ""`, send on `resultsCh`
when its buffer (capacity `len(events)`) has room, or run the deferred
`wg.Done()`. -/
def stepWorker (events : List (Event Commit)) (s : State Commit) (j : Nat) :
    Option (State Commit) :=
  match s.workers[j]? with
  | none => none
  | some .recv => if s.eventsClosed then some (s.setWorker j .leave) else none
  | some (.format e) =>
    match eventFormatter e with
    | .error p => some { s with panicked := some p }
    | .ok message =>
      if message = [] then some (s.setWorker j .recv) else some (s.setWorker j (.send message))
  | some (.send message) =>
    if s.resultsClosed then some { s with panicked := some .sendOnClosed }
    else if s.results.length < events.length then
      some { s.setWorker j .recv with results := s.results ++ [message] }
    else none
  | some .leave =>
    if s.wg = 0 then some { s with panicked := some .negativeCounter }
    else some { s.setWorker j .exited with wg := s.wg - 1 }
  | some .exited => none

/-- The send `resultsCh <- message` of worker `j` handed directly to `main`
blocked in `for msg := range resultsCh` on the empty buffer. -/
def stepDirect (s : State Commit) (j : Nat) : Option (State Commit) :=
  match s.main, s.results, s.workers[j]? with
  | .collect, [], some (.send message) =>
    if s.resultsClosed then none
    else some { s.setWorker j .recv with collected := s.collected ++ [message] }
  | _, _, _ => none

/-- A step of the closer (lines 137-140): `wg.Wait()` returns once the counter
is zero, then `close(resultsCh)`. -/
def stepCloser (s : State Commit) : Option (State Commit) :=
  match s.closer with
  | .idle => none
  | .wait => if s.wg = 0 then some { s with closer := .close } else none
  | .close => some { s with resultsClosed := true, closer := .exited }
  | .exited => none

/-- One step of the program under action `a`; `none` when `a` cannot run in
`s`.  Nothing runs after a panic or after `main` returned. -/
def step (numWorkers : Nat) (events : List (Event Commit)) (s : State Commit) (a : Action) :
    Option (State Commit) :=
  if s.panicked.isSome ∨ s.main = .done then none
  else
    match a with
    | .main => stepMain numWorkers events s
    | .handOver j => stepHandOver events s j
    | .worker j => stepWorker events s j
    | .direct j => stepDirect s j
    | .closer => stepCloser s

/-- Runs a schedule from `s`; `none` when one of its actions cannot run. -/
def run (numWorkers : Nat) (events : List (Event Commit)) (s : State Commit) :
    List Action → Option (State Commit)
  | [] => some s
  | a :: rest => (step numWorkers events s a).bind fun t => run numWorkers events t rest

/-- The states some schedule reaches from the initial state. -/
def Reachable (numWorkers : Nat) (events : List (Event Commit)) (s : State Commit) : Prop :=
  ∃ sched, run numWorkers events State.init sched = some s

/-- The message a worker sends for event `e`: the result of `eventFormatter`
when it is a non-empty string. -/
def lineOf (e : Event Commit) : Option GoString :=
  match eventFormatter e with
  | .ok message => if message = [] then none else some message
  | .error _ => none

/-- The non-empty `eventFormatter` results of a batch, in batch order. -/
def linesOf (events : List (Event Commit)) : List GoString := events.filterMap lineOf

/-- The value of `numWorkers` in `main`. -/
def numWorkers : Nat := 4

/-! ## Quantities and invariants of the pipeline -/

/-- The number of events `main` has sent on `eventsCh` so far. -/
def dispatched (events : List (Event Commit)) (s : State Commit) : Nat :=
  match s.main with
  | .spawn _ => 0
  | .dispatch k => k
  | _ => events.length

/-- The messages a worker still has to send for the event it took. -/
def WorkerPc.owes : WorkerPc Commit → List GoString
  | .format e => (lineOf e).toList
  | .send message => [message]
  | _ => []

/-- Counts a worker that has not run `wg.Done()` yet. -/
def WorkerPc.alive : WorkerPc Commit → Nat
  | .exited => 0
  | _ => 1

/-- A worker inside its loop `for e := range eventsCh`. -/
def WorkerPc.inLoop : WorkerPc Commit → Prop
  | .recv => True
  | .format _ => True
  | .send _ => True
  | _ => False

/-- An event held by a worker comes from the batch. -/
def WorkerPc.fromBatch (events : List (Event Commit)) : WorkerPc Commit → Prop
  | .format e => e ∈ events
  | _ => True

/-- The goroutine of `main` has not reached `close(eventsCh)` yet. -/
def MainPc.feeding : MainPc → Prop
  | .spawn _ => True
  | .dispatch _ => True
  | _ => False

/-- The goroutine of `main` has not started the closer yet. -/
def MainPc.beforeCloser : MainPc → Prop
  | .spawn _ => True
  | .dispatch _ => True
  | .startCloser => True
  | _ => False

/-- How many workers exist (`n`) at each position of `main`, and the range of
the loop indices. -/
def MainPc.started (numWorkers len n : Nat) : MainPc → Prop
  | .spawn i => n = i ∧ i ≤ numWorkers
  | .dispatch k => n = numWorkers ∧ k ≤ len
  | _ => n = numWorkers

/-- The invariant of the pipeline.  `conserve` says that no line is lost or
made twice: the lines collected, the lines buffered in `resultsCh`, the lines
the workers still owe and the lines of the events not yet sent are together
the lines of the batch. -/
structure Inv (numWorkers : Nat) (events : List (Event Commit)) (s : State Commit) : Prop where
  conserve :
    ((s.collected : Multiset GoString) + (s.results : Multiset GoString)
        + (s.workers.map fun w => (w.owes : Multiset GoString)).sum
        + (linesOf (events.drop (dispatched events s)) : Multiset GoString))
      = (linesOf events : Multiset GoString)
  started : s.main.started numWorkers events.length s.workers.length
  counter : s.wg = (s.workers.map WorkerPc.alive).sum
  feeding : s.main.feeding ↔ s.eventsClosed = false
  inLoop : s.eventsClosed = false → ∀ w ∈ s.workers, w.inLoop
  fromBatch : ∀ w ∈ s.workers, w.fromBatch events
  closerIdle : s.main.beforeCloser ↔ s.closer = .idle
  waited : s.closer = .close ∨ s.closer = .exited → s.wg = 0
  closed : s.resultsClosed = true ↔ s.closer = .exited
  finished : s.main = .done → s.resultsClosed = true ∧ s.results = []

/-- The number of steps a worker can still take, counting the receipt of its
message by `main`. -/
def WorkerPc.cost : WorkerPc Commit → Nat
  | .recv => 2
  | .format _ => 5
  | .send _ => 4
  | .leave => 1
  | .exited => 0

/-- The number of steps the closer can still take. -/
def CloserPc.cost : CloserPc → Nat
  | .idle => 0
  | .wait => 2
  | .close => 1
  | .exited => 0

/-- The number of steps `main` can still cause, counting those of the
goroutines it has yet to start and of the events it has yet to send. -/
def MainPc.cost (numWorkers len : Nat) : MainPc → Nat
  | .spawn i => 3 * (numWorkers - i) + 4 * len + 6
  | .dispatch k => 4 * (len - k) + 5
  | .startCloser => 4
  | .collect => 1
  | .done => 0

/-- A bound on the number of steps left from `s`; every step lowers it. -/
def stepsLeft (numWorkers : Nat) (events : List (Event Commit)) (s : State Commit) : Nat :=
  s.main.cost numWorkers events.length + (s.workers.map WorkerPc.cost).sum + s.closer.cost
    + s.results.length + (if s.panicked.isSome then 0 else 1)

/-- Builds a test event from literals: type, repository name, action and the
number of commits. -/
def ev (t r a : String) (n : Nat) : Event Unit :=
  ⟨str t, ⟨str r⟩, ⟨str a, List.replicate n ()⟩⟩

/-- A batch with one event of each kind, a Push event without commits and an
event of an unknown kind. -/
def sampleBatch : List (Event Unit) :=
  [ev "PushEvent" "foo/bar" "" 2, ev "WatchEvent" "foo/bar" "started" 0,
   ev "IssuesEvent" "foo/bar" "opened" 0, ev "ForkEvent" "foo/bar" "" 0,
   ev "PushEvent" "foo/bar" "" 0, ev "CreateEvent" "foo/bar" "" 0]

/-- A schedule of the program on `sampleBatch` with four workers that runs it
to the end. -/
def sampleSchedule : List Action :=
  [.main, .main, .main, .main, .main, .handOver 2, .handOver 3, .handOver 1, .handOver 0,
   .worker 0, .worker 0, .handOver 0, .worker 0, .handOver 0, .worker 0, .worker 1, .worker 1,
   .worker 2, .worker 2, .worker 3, .worker 3, .main, .worker 0, .worker 0, .worker 1,
   .worker 1, .worker 2, .worker 2, .worker 3, .worker 3, .main, .main, .main, .main, .main,
   .closer, .closer, .main]

/-! ## Decimal output of `%v` -/

theorem digit_toNat (n : Nat) : ((48 + n % 10).toUInt8).toNat = 48 + n % 10 := by
  have h : n % 10 < 10 := Nat.mod_lt _ (by decide)
  exact UInt8.toNat_ofNat_of_lt (by simp only [UInt8.size]; omega)

theorem parseStep_digit (a n : Nat) :
    parseStep (some a) (48 + n % 10).toUInt8 = some (10 * a + n % 10) := by
  have h : n % 10 < 10 := Nat.mod_lt _ (by decide)
  simp only [parseStep, Option.bind, digit_toNat]
  rw [if_pos ⟨by omega, by omega⟩]
  congr 2
  omega

theorem fmtIntAux_spec (fuel : Nat) : ∀ (n : Nat) (acc : GoString), n < fuel →
    ∃ ds : GoString, fmtIntAux fuel n acc = ds ++ acc ∧ ds ≠ [] ∧
      (∀ a, ds.foldl parseStep (some a) = some (a * 10 ^ ds.length + n)) ∧
      (1 ≤ n → ds.head? ≠ some 48) := by
  induction fuel with
  | zero => intro n acc h; omega
  | succ fuel ih =>
    intro n acc h
    by_cases h0 : n / 10 = 0
    · refine ⟨[(48 + n % 10).toUInt8], ?_, by simp, ?_, ?_⟩
      · simp [fmtIntAux, h0]
      · intro a
        have hn : n % 10 = n := by omega
        simp only [List.foldl, parseStep_digit, List.length_singleton, pow_one]
        congr 1
        omega
      · intro h1 hc
        have hd := digit_toNat n
        simp only [List.head?_cons, Option.some.injEq] at hc
        rw [hc] at hd
        have : (48 : UInt8).toNat = 48 := by decide
        omega
    · have hlt : n / 10 < fuel := by omega
      obtain ⟨ds, hds, hne, hval, hhead⟩ := ih (n / 10) ((48 + n % 10).toUInt8 :: acc) hlt
      refine ⟨ds ++ [(48 + n % 10).toUInt8], ?_, by simp, ?_, ?_⟩
      · simp [fmtIntAux, h0, hds]
      · intro a
        rw [List.foldl_append, hval a]
        simp only [List.foldl, parseStep_digit, List.length_append, List.length_singleton,
          pow_succ]
        congr 1
        have := Nat.div_add_mod n 10
        ring_nf
        ring_nf at this
        omega
      · intro h1
        have h2 : 1 ≤ n / 10 := by omega
        have := hhead h2
        cases ds with
        | nil => exact absurd rfl hne
        | cons d ds => simpa using this

theorem parseDec_fmtInt (n : Nat) : parseDec (fmtInt n) = some n := by
  obtain ⟨ds, hds, hne, hval, _⟩ := fmtIntAux_spec (n + 1) n [] (by omega)
  have hfold := hval 0
  simp only [List.append_nil] at hds
  have hp : parseDec ds = ds.foldl parseStep (some 0) := by
    unfold parseDec
    rw [if_neg hne]
  rw [fmtInt, hds, hp, hfold]
  simp

theorem fmtInt_head (n : Nat) (h : 1 ≤ n) : (fmtInt n).head? ≠ some 48 := by
  obtain ⟨ds, hds, _, _, hhead⟩ := fmtIntAux_spec (n + 1) n [] (by omega)
  simp only [List.append_nil] at hds
  rw [fmtInt, hds]
  exact hhead h

/-! ## The formatter, kind by kind -/

theorem ok_ne_ok {a b : GoString} (h : a ≠ b) :
    (Except.ok a : Except Panic GoString) ≠ Except.ok b :=
  fun hab => h (Except.ok.inj hab)

/-- C1 (counterexample): for a Push event with two commits on repository `r`
the formatter returns `Pushed`, the colour code `ESC[34m`, `2 commits`, the
reset code `ESC[0m` and ` to r`; this is not the plain string
`Pushed 2 commits to r`. -/
theorem C1_push_plain_refuted :
    eventFormatter (ev "PushEvent" "r" "" 2)
        = .ok (str "Pushed \x1b[34m2 commits\x1b[0m to r") ∧
      eventFormatter (ev "PushEvent" "r" "" 2) ≠ .ok (str "Pushed 2 commits to r") := by
  have h : eventFormatter (ev "PushEvent" "r" "" 2)
      = .ok (str "Pushed \x1b[34m2 commits\x1b[0m to r") := rfl
  refine ⟨h, ?_⟩
  rw [h]
  exact ok_ne_ok (by decide)

/-- C1 (amended): for a Push event with `n ≥ 1` commits on repository `r`, the
formatter returns exactly `Pushed ` + `ESC[34m` + digits + ` commits` +
`ESC[0m` + ` to ` + `r`, where the digits are the decimal notation of `n`:
they read back as `n` and do not start with `0`. -/
theorem C1_push_colored (e : Event Commit) (hT : e.Type_ = str "PushEvent")
    (hn : 1 ≤ e.Payload.Commits.length) :
    ∃ digits : GoString,
      eventFormatter e
          = .ok (str "Pushed \x1b[34m" ++ digits ++ str " commits\x1b[0m to " ++ e.Repo.Name) ∧
        parseDec digits = some e.Payload.Commits.length ∧ digits.head? ≠ some 48 := by
  refine ⟨fmtInt e.Payload.Commits.length, ?_, parseDec_fmtInt _, fmtInt_head _ hn⟩
  have h0 : ¬ e.Payload.Commits.length = 0 := by omega
  have h1 : str "Pushed \x1b[34m" = str "Pushed " ++ Blue := by decide
  have h2 : str " commits\x1b[0m to " = str " commits" ++ Reset ++ str " to " := by decide
  simp only [eventFormatter, hT, if_true, pushEvent, if_neg h0, h1, h2, List.append_assoc]

/-- C1 (witness): the amended claim at a Push event with three commits on `foo/bar`. -/
theorem C1_push_colored_witness :
    (ev "PushEvent" "foo/bar" "" 3).Type_ = str "PushEvent" ∧
      1 ≤ (ev "PushEvent" "foo/bar" "" 3).Payload.Commits.length ∧
      ∃ digits : GoString,
        eventFormatter (ev "PushEvent" "foo/bar" "" 3)
            = .ok (str "Pushed \x1b[34m" ++ digits ++ str " commits\x1b[0m to "
                ++ (ev "PushEvent" "foo/bar" "" 3).Repo.Name) ∧
          parseDec digits = some (ev "PushEvent" "foo/bar" "" 3).Payload.Commits.length ∧
          digits.head? ≠ some 48 :=
  ⟨rfl, by decide, C1_push_colored (ev "PushEvent" "foo/bar" "" 3) rfl (by decide)⟩

/-- C2 (counterexample): for the Issues event with action `opened` on
`foo/bar` the formatter returns the capitalised action wrapped in the colour
codes `ESC[33m` and `ESC[0m`, not the plain `Opened an issue in foo/bar`; and
for the action `é` (bytes `C3 A9`) the first byte, not the first character, is
replaced: the result holds U+FFFD (`EF BF BD`) followed by the stray byte `A9`,
which is neither `É` nor `é`, with or without the colour codes. -/
theorem C2_issues_plain_refuted :
    eventFormatter (ev "IssuesEvent" "foo/bar" "opened" 0)
        = .ok (str "\x1b[33mOpened\x1b[0m an issue in foo/bar") ∧
      eventFormatter (ev "IssuesEvent" "foo/bar" "opened" 0)
        ≠ .ok (str "Opened an issue in foo/bar") ∧
      eventFormatter (ev "IssuesEvent" "foo/bar" "é" 0)
        = .ok (str "\x1b[33m" ++ [0xEF, 0xBF, 0xBD, 0xA9] ++ str "\x1b[0m an issue in foo/bar") ∧
      eventFormatter (ev "IssuesEvent" "foo/bar" "é" 0)
        ≠ .ok (str "\x1b[33mÉ\x1b[0m an issue in foo/bar") ∧
      eventFormatter (ev "IssuesEvent" "foo/bar" "é" 0)
        ≠ .ok (str "\x1b[33mé\x1b[0m an issue in foo/bar") ∧
      eventFormatter (ev "IssuesEvent" "foo/bar" "é" 0) ≠ .ok (str "É an issue in foo/bar") ∧
      eventFormatter (ev "IssuesEvent" "foo/bar" "é" 0) ≠ .ok (str "é an issue in foo/bar") := by
  have h : eventFormatter (ev "IssuesEvent" "foo/bar" "opened" 0)
      = .ok (str "\x1b[33mOpened\x1b[0m an issue in foo/bar") := rfl
  have h2 : eventFormatter (ev "IssuesEvent" "foo/bar" "é" 0)
      = .ok (str "\x1b[33m" ++ [0xEF, 0xBF, 0xBD, 0xA9] ++ str "\x1b[0m an issue in foo/bar") :=
    rfl
  refine ⟨h, ?_, h2, ?_, ?_, ?_, ?_⟩
  · rw [h]
    exact ok_ne_ok (by decide)
  all_goals
    rw [h2]
    exact ok_ne_ok (by decide)

/-- C2 (amended): for an Issues event whose action starts with an ASCII byte
`c` followed by `rest`, on repository `r`, the formatter returns exactly
`ESC[33m` + `C` + `rest` + `ESC[0m` + ` an issue in ` + `r`, where `C` is `c`
moved to upper case when `c` is one of `a`..`z` (its code minus 32, which does
not wrap around) and `c` itself otherwise; `rest` is unchanged. -/
theorem C2_issues_colored (e : Event Commit) (c : UInt8) (rest : GoString)
    (hT : e.Type_ = str "IssuesEvent") (ha : e.Payload.Action = c :: rest) (hc : c < 0x80) :
    eventFormatter e
        = .ok (str "\x1b[33m" ++ (if 97 ≤ c ∧ c ≤ 122 then c - 32 else c) :: rest
            ++ str "\x1b[0m an issue in " ++ e.Repo.Name) ∧
      (97 ≤ c ∧ c ≤ 122 → (c - 32).toNat + 32 = c.toNat) := by
  constructor
  · have h1 : ¬ str "IssuesEvent" = str "PushEvent" := by decide
    have h2 : ¬ str "IssuesEvent" = str "WatchEvent" := by decide
    have h3 : str "\x1b[0m an issue in " = Reset ++ str " an issue in " := by decide
    have h4 : str "\x1b[33m" = Yellow := by decide
    simp only [eventFormatter, hT, if_neg h1, if_neg h2, if_true, issuesEvent, ha, ToUpperByte,
      if_pos hc, h3, h4]
    split <;> simp
  · rintro ⟨hlo, hhi⟩
    have hlo1 : (97 : UInt8).toNat ≤ c.toNat := hlo
    have h32 : (32 : UInt8) ≤ c := UInt8.le_trans (by decide) hlo
    have := UInt8.toNat_sub_of_le c 32 h32
    have h97 : (97 : UInt8).toNat = 97 := by decide
    have h32n : (32 : UInt8).toNat = 32 := by decide
    omega

/-- C2 (witness): the amended claim at the Issues event with action `opened` on
`foo/bar`; the first byte is `o` (111). -/
theorem C2_issues_colored_witness :
    (ev "IssuesEvent" "foo/bar" "opened" 0).Type_ = str "IssuesEvent" ∧
      (ev "IssuesEvent" "foo/bar" "opened" 0).Payload.Action = 111 :: str "pened" ∧
      (111 : UInt8) < 0x80 ∧
      (eventFormatter (ev "IssuesEvent" "foo/bar" "opened" 0)
          = .ok (str "\x1b[33m" ++ (if 97 ≤ (111 : UInt8) ∧ (111 : UInt8) ≤ 122 then 111 - 32 else 111)
              :: str "pened" ++ str "\x1b[0m an issue in "
              ++ (ev "IssuesEvent" "foo/bar" "opened" 0).Repo.Name) ∧
        (97 ≤ (111 : UInt8) ∧ (111 : UInt8) ≤ 122 → ((111 : UInt8) - 32).toNat + 32 = (111 : UInt8).toNat)) :=
  ⟨rfl, rfl, by decide,
    C2_issues_colored (ev "IssuesEvent" "foo/bar" "opened" 0) 111 (str "pened") rfl rfl (by decide)⟩

/-- C3: the formatter panics exactly on an Issues event with the empty action;
on every other event it returns a string. -/
theorem C3_eventFormatter_fails_iff (e : Event Commit) :
    ((∃ p, eventFormatter e = .error p) ↔
        (e.Type_ = str "IssuesEvent" ∧ e.Payload.Action = [])) ∧
      ((e.Type_ = str "IssuesEvent" ∧ e.Payload.Action = []) ∨
        ∃ message, eventFormatter e = .ok message) := by
  have key : ∀ m, eventFormatter e = .ok m → ¬ e.Type_ = str "IssuesEvent" →
      ((∃ p, eventFormatter e = .error p) ↔
          (e.Type_ = str "IssuesEvent" ∧ e.Payload.Action = [])) ∧
        ((e.Type_ = str "IssuesEvent" ∧ e.Payload.Action = []) ∨
          ∃ message, eventFormatter e = .ok message) := by
    intro m hm hne
    rw [hm]
    exact ⟨⟨fun ⟨p, hp⟩ => (by cases hp), fun h => absurd h.1 hne⟩, Or.inr ⟨m, rfl⟩⟩
  by_cases hP : e.Type_ = str "PushEvent"
  · exact key (pushEvent e) (by simp only [eventFormatter, if_pos hP]) (by rw [hP]; decide)
  by_cases hW : e.Type_ = str "WatchEvent"
  · exact key (watchEvent e) (by simp only [eventFormatter, if_neg hP, if_pos hW]) (by rw [hW]; decide)
  by_cases hI : e.Type_ = str "IssuesEvent"
  · have hf : eventFormatter e = issuesEvent e := by
      simp only [eventFormatter, if_neg hP, if_neg hW, if_pos hI]
    rw [hf]
    cases ha : e.Payload.Action with
    | nil =>
      have hi : issuesEvent e = .error (.sliceBounds 1 0) := by simp only [issuesEvent, ha]
      rw [hi]
      exact ⟨⟨fun _ => ⟨hI, rfl⟩, fun _ => ⟨_, rfl⟩⟩, Or.inl ⟨hI, rfl⟩⟩
    | cons c rest =>
      have hi : issuesEvent e
          = .ok (Yellow ++ (ToUpperByte c ++ rest) ++ Reset ++ str " an issue in " ++ e.Repo.Name) := by
        simp only [issuesEvent, ha]
      rw [hi]
      exact ⟨⟨fun ⟨p, hp⟩ => (by cases hp), fun h => (by cases h.2)⟩, Or.inr ⟨_, rfl⟩⟩
  by_cases hF : e.Type_ = str "ForkEvent"
  · exact key (forkEvent e) (by simp only [eventFormatter, if_neg hP, if_neg hW, if_neg hI, if_pos hF]) hI
  · exact key [] (by simp only [eventFormatter, if_neg hP, if_neg hW, if_neg hI, if_neg hF]) hI

/-- C6 (counterexample): for the Watch event on `foo/bar` the formatter
returns `Starred` wrapped in the colour codes `ESC[32m` and `ESC[0m`, then
` foo/bar`; this is not the plain string `Starred foo/bar`. -/
theorem C6_watch_plain_refuted :
    eventFormatter (ev "WatchEvent" "foo/bar" "" 0)
        = .ok (str "\x1b[32mStarred\x1b[0m foo/bar") ∧
      eventFormatter (ev "WatchEvent" "foo/bar" "" 0) ≠ .ok (str "Starred foo/bar") := by
  have h : eventFormatter (ev "WatchEvent" "foo/bar" "" 0)
      = .ok (str "\x1b[32mStarred\x1b[0m foo/bar") := rfl
  refine ⟨h, ?_⟩
  rw [h]
  exact ok_ne_ok (by decide)

/-- C6 (amended): for every Watch event on repository `r`, whatever its action
and commits, the formatter returns exactly `ESC[32m` + `Starred` + `ESC[0m` +
a space + `r`. -/
theorem C6_watch_colored (e : Event Commit) (hT : e.Type_ = str "WatchEvent") :
    eventFormatter e = .ok (str "\x1b[32mStarred\x1b[0m " ++ e.Repo.Name) := by
  have h1 : ¬ str "WatchEvent" = str "PushEvent" := by decide
  have h2 : str "\x1b[32mStarred\x1b[0m " = Green ++ str "Starred" ++ Reset ++ str " " := by
    decide
  simp only [eventFormatter, hT, if_neg h1, if_true, watchEvent, h2]

/-- C6 (witness): the amended claim at a Watch event on `foo/bar` that also carries
an action and two commits. -/
theorem C6_watch_colored_witness :
    (ev "WatchEvent" "foo/bar" "started" 2).Type_ = str "WatchEvent" ∧
      eventFormatter (ev "WatchEvent" "foo/bar" "started" 2)
        = .ok (str "\x1b[32mStarred\x1b[0m " ++ (ev "WatchEvent" "foo/bar" "started" 2).Repo.Name) :=
  ⟨rfl, C6_watch_colored (ev "WatchEvent" "foo/bar" "started" 2) rfl⟩

/-- C7 (counterexample): for the Fork event on `foo/bar` the formatter returns
`Forked` wrapped in the colour codes `ESC[32m` and `ESC[0m`, then ` foo/bar`;
this is not the plain string `Forked foo/bar`. -/
theorem C7_fork_plain_refuted :
    eventFormatter (ev "ForkEvent" "foo/bar" "" 0)
        = .ok (str "\x1b[32mForked\x1b[0m foo/bar") ∧
      eventFormatter (ev "ForkEvent" "foo/bar" "" 0) ≠ .ok (str "Forked foo/bar") := by
  have h : eventFormatter (ev "ForkEvent" "foo/bar" "" 0)
      = .ok (str "\x1b[32mForked\x1b[0m foo/bar") := rfl
  refine ⟨h, ?_⟩
  rw [h]
  exact ok_ne_ok (by decide)

/-- C7 (amended): for every Fork event on repository `r`, whatever its action
and commits, the formatter returns exactly `ESC[32m` + `Forked` + `ESC[0m` +
a space + `r`. -/
theorem C7_fork_colored (e : Event Commit) (hT : e.Type_ = str "ForkEvent") :
    eventFormatter e = .ok (str "\x1b[32mForked\x1b[0m " ++ e.Repo.Name) := by
  have h1 : ¬ str "ForkEvent" = str "PushEvent" := by decide
  have h2 : ¬ str "ForkEvent" = str "WatchEvent" := by decide
  have h3 : ¬ str "ForkEvent" = str "IssuesEvent" := by decide
  have h4 : str "\x1b[32mForked\x1b[0m " = Green ++ str "Forked" ++ Reset ++ str " " := by
    decide
  simp only [eventFormatter, hT, if_neg h1, if_neg h2, if_neg h3, if_true, forkEvent, h4]

/-- C7 (witness): the amended claim at a Fork event on `foo/bar` that also carries
an action and one commit. -/
theorem C7_fork_colored_witness :
    (ev "ForkEvent" "foo/bar" "x" 1).Type_ = str "ForkEvent" ∧
      eventFormatter (ev "ForkEvent" "foo/bar" "x" 1)
        = .ok (str "\x1b[32mForked\x1b[0m " ++ (ev "ForkEvent" "foo/bar" "x" 1).Repo.Name) :=
  ⟨rfl, C7_fork_colored (ev "ForkEvent" "foo/bar" "x" 1) rfl⟩

/-- C8: for a Push event without commits the formatter returns the empty
string, and a worker holding such an event goes back to receiving without
sending: its step leaves the buffer of `resultsCh` and everything but its own
program counter untouched. -/
theorem C8_push_no_commits (e : Event Commit) (hT : e.Type_ = str "PushEvent")
    (hc : e.Payload.Commits.length = 0) :
    eventFormatter e = .ok [] ∧
      ∀ (events : List (Event Commit)) (s : State Commit) (j : Nat),
        s.workers[j]? = some (.format e) →
          stepWorker events s j = some { s with workers := s.workers.set j .recv } := by
  have h : eventFormatter e = .ok [] := by
    simp only [eventFormatter, hT, if_true, pushEvent, if_pos hc]
  refine ⟨h, ?_⟩
  intro events s j hj
  simp only [stepWorker, hj, h, if_true, State.setWorker]

/-- C8 (witness): the claim at a Push event on `foo/bar` without commits. -/
theorem C8_push_no_commits_witness :
    (ev "PushEvent" "foo/bar" "x" 0).Type_ = str "PushEvent" ∧
      (ev "PushEvent" "foo/bar" "x" 0).Payload.Commits.length = 0 ∧
      (eventFormatter (ev "PushEvent" "foo/bar" "x" 0) = .ok [] ∧
        ∀ (events : List (Event Unit)) (s : State Unit) (j : Nat),
          s.workers[j]? = some (.format (ev "PushEvent" "foo/bar" "x" 0)) →
            stepWorker events s j = some { s with workers := s.workers.set j .recv }) :=
  ⟨rfl, rfl, C8_push_no_commits (ev "PushEvent" "foo/bar" "x" 0) rfl rfl⟩

/-- C9: for an event whose type is none of `PushEvent`, `WatchEvent`,
`IssuesEvent`, `ForkEvent` (compared byte by byte) the formatter returns the
empty string, and a worker holding such an event goes back to receiving
without sending. -/
theorem C9_other_kind (e : Event Commit) (hP : e.Type_ ≠ str "PushEvent")
    (hW : e.Type_ ≠ str "WatchEvent") (hI : e.Type_ ≠ str "IssuesEvent")
    (hF : e.Type_ ≠ str "ForkEvent") :
    eventFormatter e = .ok [] ∧
      ∀ (events : List (Event Commit)) (s : State Commit) (j : Nat),
        s.workers[j]? = some (.format e) →
          stepWorker events s j = some { s with workers := s.workers.set j .recv } := by
  have h : eventFormatter e = .ok [] := by
    simp only [eventFormatter, if_neg hP, if_neg hW, if_neg hI, if_neg hF]
  refine ⟨h, ?_⟩
  intro events s j hj
  simp only [stepWorker, hj, h, if_true, State.setWorker]

/-- C9 (witness): the claim at an event of type `pushevent`, which differs from
`PushEvent` in letter case only. -/
theorem C9_other_kind_witness :
    (ev "pushevent" "foo/bar" "opened" 3).Type_ ≠ str "PushEvent" ∧
      (ev "pushevent" "foo/bar" "opened" 3).Type_ ≠ str "WatchEvent" ∧
      (ev "pushevent" "foo/bar" "opened" 3).Type_ ≠ str "IssuesEvent" ∧
      (ev "pushevent" "foo/bar" "opened" 3).Type_ ≠ str "ForkEvent" ∧
      (eventFormatter (ev "pushevent" "foo/bar" "opened" 3) = .ok [] ∧
        ∀ (events : List (Event Unit)) (s : State Unit) (j : Nat),
          s.workers[j]? = some (.format (ev "pushevent" "foo/bar" "opened" 3)) →
            stepWorker events s j = some { s with workers := s.workers.set j .recv }) :=
  ⟨by decide, by decide, by decide, by decide,
    C9_other_kind (ev "pushevent" "foo/bar" "opened" 3) (by decide) (by decide) (by decide)
      (by decide)⟩

/-! ## Invariant preservation -/

theorem sum_map_set {α M : Type} [AddCommMonoid M] (f : α → M) :
    ∀ (l : List α) (j : Nat) (a b : α), l[j]? = some a →
      ((l.set j b).map f).sum + f a = (l.map f).sum + f b := by
  intro l
  induction l with
  | nil => intro j a b h; simp at h
  | cons x xs ih =>
    intro j a b h
    cases j with
    | zero =>
      simp only [List.getElem?_cons_zero, Option.some.injEq] at h
      subst h
      simp only [List.set_cons_zero, List.map_cons, List.sum_cons]
      abel
    | succ j =>
      simp only [List.getElem?_cons_succ] at h
      have := ih j a b h
      simp only [List.set_cons_succ, List.map_cons, List.sum_cons, add_assoc, this]

theorem inv_init (W : Nat) (events : List (Event Commit)) : Inv W events State.init := by
  constructor <;> simp [State.init, dispatched, MainPc.started, MainPc.feeding, MainPc.beforeCloser]

theorem inv_stepCloser {W : Nat} {events : List (Event Commit)} {s t : State Commit}
    (hI : Inv W events s) (h : stepCloser s = some t) : Inv W events t := by
  obtain ⟨h1, h2, h3, h4, h5, h6, h7, h8, h9, h10⟩ := hI
  unfold stepCloser at h
  split at h
  · cases h
  · split at h
    · cases h
      rename_i hc hw
      constructor <;> simp_all [dispatched]
    · cases h
  · cases h
    rename_i hc
    constructor <;> simp_all [dispatched]
  · cases h

theorem inv_stepMain {W : Nat} {events : List (Event Commit)} {s t : State Commit}
    (hI : Inv W events s) (h : stepMain W events s = some t) : Inv W events t := by
  obtain ⟨h1, h2, h3, h4, h5, h6, h7, h8, h9, h10⟩ := hI
  unfold stepMain at h
  split at h
  · rename_i i hm
    split at h
    · cases h
      constructor <;> simp_all [dispatched, MainPc.started, MainPc.feeding, MainPc.beforeCloser, WorkerPc.owes, WorkerPc.alive, WorkerPc.inLoop, WorkerPc.fromBatch]
      · omega
      · rintro w (hw | rfl)
        · exact h5 w hw
        · trivial
      · rintro w (hw | rfl)
        · exact h6 w hw
        · trivial
    · cases h
      constructor <;> simp_all [dispatched, MainPc.started, MainPc.feeding, MainPc.beforeCloser, WorkerPc.owes, WorkerPc.alive, WorkerPc.inLoop, WorkerPc.fromBatch]
      omega
  · rename_i k hm
    split at h
    · cases h
    · cases h
      have hk : k = events.length := by
        rw [hm] at h2
        have := h2.2
        omega
      subst hk
      constructor <;> simp_all [dispatched, MainPc.started, MainPc.feeding, MainPc.beforeCloser, WorkerPc.owes, WorkerPc.alive, WorkerPc.inLoop, WorkerPc.fromBatch]
  · rename_i hm
    cases h
    constructor <;> simp_all [dispatched, MainPc.started, MainPc.feeding, MainPc.beforeCloser, WorkerPc.owes, WorkerPc.alive, WorkerPc.inLoop, WorkerPc.fromBatch]
  · rename_i hm
    split at h
    · cases h
      constructor <;> simp_all [dispatched, MainPc.started, MainPc.feeding, MainPc.beforeCloser, WorkerPc.owes, WorkerPc.alive, WorkerPc.inLoop, WorkerPc.fromBatch]
    · split at h
      · cases h
        constructor <;> simp_all [dispatched, MainPc.started, MainPc.feeding, MainPc.beforeCloser, WorkerPc.owes, WorkerPc.alive, WorkerPc.inLoop, WorkerPc.fromBatch]
      · cases h
  · cases h

theorem forall_mem_set {α : Type} {P : α → Prop} {l : List α} {j : Nat} {b : α}
    (h : ∀ w ∈ l, P w) (hb : P b) : ∀ w ∈ l.set j b, P w :=
  fun w hw => (List.mem_or_eq_of_mem_set hw).elim (h w) (fun e => e ▸ hb)

theorem conserve_swap {c r X Y L a b c1 r1 L1 : Multiset GoString} (hO : X + a = Y + b)
    (hbal : c1 + r1 + b + L1 = c + r + a + L) : c1 + r1 + X + L1 = c + r + Y + L := by
  have h : (c1 + r1 + X + L1) + (a + b) = (c + r + Y + L) + (a + b) := by
    calc (c1 + r1 + X + L1) + (a + b) = (c1 + r1 + b + L1) + (X + a) := by abel
      _ = (c + r + a + L) + (Y + b) := by rw [hbal, hO]
      _ = (c + r + Y + L) + (a + b) := by abel
  exact add_right_cancel h

theorem lineOf_ok_nil {e : Event Commit} (h : eventFormatter e = .ok []) : lineOf e = none := by
  simp [lineOf, h]

theorem lineOf_ok_cons {e : Event Commit} {m : GoString} (h : eventFormatter e = .ok m)
    (hm : ¬ m = []) : lineOf e = some m := by
  simp [lineOf, h, hm]

/-- The effect on the invariant of a step that moves worker `j` from `w` to
`w1` and may touch the buffer, the collected lines, the counter and the
position of `main` in its sending loop. -/
theorem inv_setWorker {W : Nat} {events : List (Event Commit)} {s t : State Commit} {j : Nat}
    {w w1 : WorkerPc Commit} (hI : Inv W events s) (hj : s.workers[j]? = some w)
    (halive : w.alive = 1)
    (hworkers : t.workers = s.workers.set j w1)
    (hcloser : t.closer = s.closer) (hec : t.eventsClosed = s.eventsClosed)
    (hrc : t.resultsClosed = s.resultsClosed)
    (hdone : t.main ≠ .done)
    (hfeed : t.main.feeding ↔ s.main.feeding)
    (hbc : t.main.beforeCloser ↔ s.main.beforeCloser)
    (hstart : ∀ n, s.main.started W events.length n → t.main.started W events.length n)
    (hwg : t.wg + 1 = s.wg + w1.alive)
    (hbal : (t.collected : Multiset GoString) + (t.results : Multiset GoString)
          + (w1.owes : Multiset GoString)
          + (linesOf (events.drop (dispatched events t)) : Multiset GoString)
        = (s.collected : Multiset GoString) + (s.results : Multiset GoString)
          + (w.owes : Multiset GoString)
          + (linesOf (events.drop (dispatched events s)) : Multiset GoString))
    (hloop : s.eventsClosed = false → w1.inLoop)
    (hbatch : w1.fromBatch events) : Inv W events t := by
  obtain ⟨h1, h2, h3, h4, h5, h6, h7, h8, h9, h10⟩ := hI
  have hO := sum_map_set (fun w => ((WorkerPc.owes w : List GoString) : Multiset GoString))
    s.workers j w w1 hj
  have hA : ((s.workers.set j w1).map WorkerPc.alive).sum + w.alive
      = (s.workers.map WorkerPc.alive).sum + w1.alive :=
    sum_map_set WorkerPc.alive s.workers j w w1 hj
  have hpos : 1 ≤ s.wg := by
    have hE : ((s.workers.set j .exited).map WorkerPc.alive).sum + w.alive
        = (s.workers.map WorkerPc.alive).sum + (WorkerPc.exited : WorkerPc Commit).alive :=
      sum_map_set WorkerPc.alive s.workers j w .exited hj
    have h0 : (WorkerPc.exited : WorkerPc Commit).alive = 0 := rfl
    rw [h3]
    omega
  refine ⟨?_, ?_, ?_, ?_, ?_, ?_, ?_, ?_, ?_, ?_⟩
  · rw [← h1, hworkers]
    exact conserve_swap hO hbal
  · rw [hworkers, List.length_set]
    exact hstart _ h2
  · rw [hworkers]
    omega
  · rw [hfeed, hec]
    exact h4
  · rw [hec, hworkers]
    intro hc
    exact forall_mem_set (h5 hc) (hloop hc)
  · rw [hworkers]
    exact forall_mem_set h6 hbatch
  · rw [hbc, hcloser]
    exact h7
  · rw [hcloser]
    intro hc
    have := h8 hc
    omega
  · rw [hrc, hcloser]
    exact h9
  · intro hd
    exact absurd hd hdone

theorem inv_panicked {W : Nat} {events : List (Event Commit)} {s : State Commit}
    (hI : Inv W events s) (p : Option Panic) : Inv W events { s with panicked := p } := by
  obtain ⟨h1, h2, h3, h4, h5, h6, h7, h8, h9, h10⟩ := hI
  exact ⟨h1, h2, h3, h4, h5, h6, h7, h8, h9, h10⟩

theorem inv_stepWorker {W : Nat} {events : List (Event Commit)} {s t : State Commit} {j : Nat}
    (hI : Inv W events s) (hm : s.main ≠ .done) (h : stepWorker events s j = some t) :
    Inv W events t := by
  unfold stepWorker at h
  split at h
  · cases h
  · rename_i hj
    split at h
    · cases h
      rename_i hc
      exact inv_setWorker hI hj rfl rfl rfl rfl rfl hm Iff.rfl Iff.rfl (fun _ h => h)
        (by simp [State.setWorker, WorkerPc.alive]) (by simp [State.setWorker, WorkerPc.owes, dispatched])
        (by simp [hc]) trivial
    · cases h
  · rename_i e hj
    split at h
    · cases h
      exact inv_panicked hI _
    · rename_i message hf
      split at h
      · cases h
        rename_i hnil
        subst hnil
        exact inv_setWorker hI hj rfl rfl rfl rfl rfl hm Iff.rfl Iff.rfl (fun _ h => h)
          (by simp [State.setWorker, WorkerPc.alive])
          (by simp [State.setWorker, WorkerPc.owes, dispatched, lineOf_ok_nil hf])
          (fun _ => trivial) trivial
      · cases h
        rename_i hne
        exact inv_setWorker hI hj rfl rfl rfl rfl rfl hm Iff.rfl Iff.rfl (fun _ h => h)
          (by simp [State.setWorker, WorkerPc.alive])
          (by simp [State.setWorker, WorkerPc.owes, dispatched, lineOf_ok_cons hf hne])
          (fun _ => trivial) trivial
  · rename_i message hj
    split at h
    · cases h
      exact inv_panicked hI _
    · split at h
      · cases h
        refine inv_setWorker hI hj rfl rfl rfl rfl rfl hm Iff.rfl Iff.rfl (fun _ h => h)
          (by simp [State.setWorker, WorkerPc.alive]) ?_ (fun _ => trivial) trivial
        simp only [State.setWorker, WorkerPc.owes, dispatched, ← Multiset.coe_add, List.append_assoc]
        abel
      · cases h
  · rename_i hj
    split at h
    · cases h
      exact inv_panicked hI _
    · cases h
      rename_i hwg
      have hc : s.eventsClosed = true := by
        cases hec : s.eventsClosed with
        | true => rfl
        | false => exact absurd (hI.inLoop hec _ (List.getElem?_mem hj)) (by simp [WorkerPc.inLoop])
      refine inv_setWorker hI hj rfl rfl rfl rfl rfl hm Iff.rfl Iff.rfl (fun _ h => h)
        ?_ (by simp [State.setWorker, WorkerPc.owes, dispatched]) (by simp [hc]) trivial
      simp only [State.setWorker, WorkerPc.alive]
      omega
  · cases h

theorem inv_stepDirect {W : Nat} {events : List (Event Commit)} {s t : State Commit} {j : Nat}
    (hI : Inv W events s) (h : stepDirect s j = some t) : Inv W events t := by
  unfold stepDirect at h
  split at h
  · rename_i message hmain hres hj
    split at h
    · cases h
    · cases h
      refine inv_setWorker hI hj rfl rfl rfl rfl rfl (by simp [State.setWorker, hmain])
        Iff.rfl Iff.rfl (fun _ h => h)
        (by simp [State.setWorker, WorkerPc.alive]) ?_ (fun _ => trivial) trivial
      simp only [State.setWorker, WorkerPc.owes, dispatched, ← Multiset.coe_add, List.append_assoc]
      abel
  · cases h

theorem inv_stepHandOver {W : Nat} {events : List (Event Commit)} {s t : State Commit} {j : Nat}
    (hI : Inv W events s) (h : stepHandOver events s j = some t) : Inv W events t := by
  unfold stepHandOver at h
  split at h
  · rename_i k hmain hj
    split at h
    · rename_i data hk
      cases h
      obtain ⟨hlt, hdata⟩ := List.getElem?_eq_some.mp hk
      refine inv_setWorker hI hj rfl rfl rfl rfl rfl (by simp [State.setWorker])
        (by simp [State.setWorker, hmain, MainPc.feeding])
        (by simp [State.setWorker, hmain, MainPc.beforeCloser]) ?_
        (by simp [State.setWorker, WorkerPc.alive]) ?_ (fun _ => trivial) ?_
      · intro n hn
        rw [hmain] at hn
        simp only [State.setWorker, MainPc.started] at hn ⊢
        omega
      · simp only [State.setWorker, WorkerPc.owes, dispatched, hmain]
        rw [List.drop_eq_getElem_cons hlt, hdata]
        simp only [linesOf, List.filterMap_cons]
        cases hl : lineOf data
        · simp
        · simp only [Option.toList, ← Multiset.singleton_add, ← Multiset.cons_coe, add_assoc,
            Multiset.coe_nil, zero_add]
      · exact List.getElem?_mem hk
    · cases h
  · cases h

theorem inv_step {W : Nat} {events : List (Event Commit)} {s t : State Commit} {a : Action}
    (hI : Inv W events s) (h : step W events s a = some t) : Inv W events t := by
  unfold step at h
  split at h
  · cases h
  · rename_i hg
    have hm : s.main ≠ .done := fun hd => hg (Or.inr hd)
    cases a with
    | main => exact inv_stepMain hI h
    | handOver j => exact inv_stepHandOver hI h
    | worker j => exact inv_stepWorker hI hm h
    | direct j => exact inv_stepDirect hI h
    | closer => exact inv_stepCloser hI h

theorem inv_run {W : Nat} {events : List (Event Commit)} (sched : List Action) :
    ∀ {s t : State Commit}, Inv W events s → run W events s sched = some t → Inv W events t := by
  induction sched with
  | nil =>
    intro s t hI h
    simp only [run, Option.some.injEq] at h
    exact h ▸ hI
  | cons a rest ih =>
    intro s t hI h
    simp only [run] at h
    cases hs : step W events s a with
    | none => simp [hs] at h
    | some u =>
      simp only [hs, Option.bind] at h
      exact ih (inv_step hI hs) h

theorem inv_reachable {W : Nat} {events : List (Event Commit)} {s : State Commit}
    (h : Reachable W events s) : Inv W events s := by
  obtain ⟨sched, hs⟩ := h
  exact inv_run sched (inv_init W events) hs

/-! ## Termination -/

theorem cost_set {s : State Commit} {j : Nat} {w : WorkerPc Commit} (w1 : WorkerPc Commit)
    (hj : s.workers[j]? = some w) :
    ((s.workers.set j w1).map WorkerPc.cost).sum + w.cost
      = (s.workers.map WorkerPc.cost).sum + w1.cost :=
  sum_map_set WorkerPc.cost s.workers j w w1 hj

theorem stepsLeft_step {W : Nat} {events : List (Event Commit)} {s t : State Commit} {a : Action}
    (h : step W events s a = some t) : stepsLeft W events t < stepsLeft W events s := by
  unfold step at h
  split at h
  · cases h
  · rename_i hg
    have hp : s.panicked.isSome = false := by
      cases hq : s.panicked.isSome with
      | false => rfl
      | true => exact absurd (Or.inl hq) hg
    cases a with
    | main =>
      simp only [stepMain] at h
      split at h
      · rename_i i hm
        split at h
        · cases h
          simp only [stepsLeft, hm, MainPc.cost, hp, List.map_append, List.sum_append,
            List.map_cons, List.map_nil, List.sum_cons, List.sum_nil, WorkerPc.cost]
          omega
        · cases h
          simp only [stepsLeft, hm, MainPc.cost, hp]
          omega
      · rename_i k hm
        split at h
        · cases h
        · cases h
          simp only [stepsLeft, hm, MainPc.cost, hp]
          omega
      · rename_i hm
        cases h
        rename_i hc
        simp only [stepsLeft, hm, MainPc.cost, hp, CloserPc.cost]
        omega
      · rename_i hm
        split at h
        · cases h
          rename_i hr
          simp only [stepsLeft, hm, MainPc.cost, hp, hr, List.length_cons]
          omega
        · split at h
          · cases h
            simp only [stepsLeft, hm, MainPc.cost, hp]
            omega
          · cases h
      · cases h
    | handOver j =>
      simp only [stepHandOver] at h
      split at h
      · rename_i k hm hj
        split at h
        · cases h
          rename_i data hk
          obtain ⟨hlt, -⟩ := List.getElem?_eq_some.mp hk
          have := cost_set (.format data) hj
          simp only [stepsLeft, State.setWorker, hm, MainPc.cost, hp, WorkerPc.cost] at this ⊢
          omega
        · cases h
      · cases h
    | worker j =>
      simp only [stepWorker] at h
      split at h
      · cases h
      · rename_i hj
        split at h
        · cases h
          have := cost_set .leave hj
          simp only [stepsLeft, State.setWorker, hp, WorkerPc.cost] at this ⊢
          omega
        · cases h
      · rename_i e hj
        split at h
        · cases h
          simp [stepsLeft, hp]
        · split at h
          · cases h
            have := cost_set .recv hj
            simp only [stepsLeft, State.setWorker, hp, WorkerPc.cost] at this ⊢
            omega
          · cases h
            rename_i message _ _
            have := cost_set (.send message) hj
            simp only [stepsLeft, State.setWorker, hp, WorkerPc.cost] at this ⊢
            omega
      · rename_i message hj
        split at h
        · cases h
          simp [stepsLeft, hp]
        · split at h
          · cases h
            have := cost_set .recv hj
            simp only [stepsLeft, State.setWorker, hp, WorkerPc.cost, List.length_append,
              List.length_singleton] at this ⊢
            omega
          · cases h
      · rename_i hj
        split at h
        · cases h
          simp [stepsLeft, hp]
        · cases h
          have := cost_set .exited hj
          simp only [stepsLeft, State.setWorker, hp, WorkerPc.cost] at this ⊢
          omega
      · cases h
    | direct j =>
      simp only [stepDirect] at h
      split at h
      · rename_i message hm hr hj
        split at h
        · cases h
        · cases h
          have := cost_set .recv hj
          simp only [stepsLeft, State.setWorker, hp, WorkerPc.cost] at this ⊢
          omega
      · cases h
    | closer =>
      simp only [stepCloser] at h
      split at h
      · cases h
      · rename_i hc
        split at h
        · cases h
          simp only [stepsLeft, hp, hc, CloserPc.cost]
          omega
        · cases h
      · rename_i hc
        cases h
        simp only [stepsLeft, hp, hc, CloserPc.cost]
        omega
      · cases h

theorem stepsLeft_run {W : Nat} {events : List (Event Commit)} (sched : List Action) :
    ∀ {s t : State Commit}, run W events s sched = some t →
      sched.length + stepsLeft W events t ≤ stepsLeft W events s := by
  induction sched with
  | nil =>
    intro s t h
    simp only [run, Option.some.injEq] at h
    subst h
    simp
  | cons a rest ih =>
    intro s t h
    simp only [run] at h
    cases hs : step W events s a with
    | none => simp [hs] at h
    | some u =>
      simp only [hs, Option.bind] at h
      have h1 := ih h
      have h2 := stepsLeft_step hs
      simp only [List.length_cons]
      omega

theorem stepsLeft_init (W : Nat) (events : List (Event Commit)) :
    stepsLeft W events (State.init : State Commit) = 4 * events.length + 3 * W + 7 := by
  simp only [stepsLeft, State.init, MainPc.cost, CloserPc.cost, List.map_nil, List.sum_nil,
    List.length_nil, Option.isSome]
  simp
  omega

/-! ## No panic, no deadlock -/

theorem alive_pos {W : Nat} {events : List (Event Commit)} {s : State Commit} {j : Nat}
    {w : WorkerPc Commit} (hI : Inv W events s) (hj : s.workers[j]? = some w)
    (halive : w.alive = 1) : 1 ≤ s.wg := by
  have hE : ((s.workers.set j .exited).map WorkerPc.alive).sum + w.alive
      = (s.workers.map WorkerPc.alive).sum + (WorkerPc.exited : WorkerPc Commit).alive :=
    sum_map_set WorkerPc.alive s.workers j w .exited hj
  have h0 : (WorkerPc.exited : WorkerPc Commit).alive = 0 := rfl
  rw [hI.counter]
  omega

theorem open_of_alive {W : Nat} {events : List (Event Commit)} {s : State Commit} {j : Nat}
    {w : WorkerPc Commit} (hI : Inv W events s) (hj : s.workers[j]? = some w)
    (halive : w.alive = 1) : s.resultsClosed = false := by
  have hpos := alive_pos hI hj halive
  cases hc : s.resultsClosed with
  | false => rfl
  | true =>
    have := hI.waited (Or.inr (hI.closed.mp hc))
    omega

theorem owes_le_batch {W : Nat} {events : List (Event Commit)} {s : State Commit} {j : Nat}
    {w : WorkerPc Commit} (hI : Inv W events s) (hj : s.workers[j]? = some w) :
    s.collected.length + s.results.length + w.owes.length ≤ (linesOf events).length := by
  have hO : ((s.workers.set j .recv).map fun w => ((WorkerPc.owes w : List GoString) : Multiset GoString)).sum
      + (w.owes : Multiset GoString)
      = (s.workers.map fun w => ((WorkerPc.owes w : List GoString) : Multiset GoString)).sum
        + ((WorkerPc.recv : WorkerPc Commit).owes : Multiset GoString) :=
    sum_map_set (fun w => ((WorkerPc.owes w : List GoString) : Multiset GoString))
      s.workers j w .recv hj
  have h1 := congrArg Multiset.card hI.conserve
  have h2 := congrArg Multiset.card hO
  have h3 : ((WorkerPc.recv : WorkerPc Commit).owes).length = 0 := rfl
  simp only [Multiset.card_add, Multiset.coe_card] at h1 h2
  omega

theorem lines_le (events : List (Event Commit)) : (linesOf events).length ≤ events.length :=
  List.length_filterMap_le _ _

theorem step_of_guard {W : Nat} {events : List (Event Commit)} {s : State Commit}
    (hp : s.panicked = none) (hm : s.main ≠ .done) (a : Action) :
    step W events s a =
      match a with
      | .main => stepMain W events s
      | .handOver j => stepHandOver events s j
      | .worker j => stepWorker events s j
      | .direct j => stepDirect s j
      | .closer => stepCloser s := by
  cases a <;> simp [step, hp, hm]

theorem step_noPanic {W : Nat} {events : List (Event Commit)} {s t : State Commit} {a : Action}
    (hok : ∀ e ∈ events, ∃ m, eventFormatter e = .ok m)
    (hI : Inv W events s) (h : step W events s a = some t) : t.panicked = none := by
  unfold step at h
  split at h
  · cases h
  · rename_i hg
    have hp : s.panicked = none := by
      cases hq : s.panicked with
      | none => rfl
      | some p => exact absurd (Or.inl (by simp [hq])) hg
    cases a with
    | main =>
      simp only [stepMain] at h
      repeat' split at h
      all_goals first | cases h; exact hp | cases h
    | handOver j =>
      simp only [stepHandOver] at h
      repeat' split at h
      all_goals first | cases h; exact hp | cases h
    | direct j =>
      simp only [stepDirect] at h
      repeat' split at h
      all_goals first | cases h; exact hp | cases h
    | closer =>
      simp only [stepCloser] at h
      repeat' split at h
      all_goals first | cases h; exact hp | cases h
    | worker j =>
      simp only [stepWorker] at h
      split at h
      · cases h
      · split at h
        · cases h; exact hp
        · cases h
      · rename_i e hj
        have he : e ∈ events := hI.fromBatch _ (List.getElem?_mem hj)
        obtain ⟨m, hm⟩ := hok e he
        rw [hm] at h
        simp only at h
        split at h <;> (cases h; exact hp)
      · rename_i message hj
        have hopen := open_of_alive hI hj rfl
        rw [hopen] at h
        simp only [Bool.false_eq_true, if_false] at h
        split at h
        · cases h; exact hp
        · cases h
      · rename_i hj
        have hpos := alive_pos hI hj rfl
        have hne : ¬ s.wg = 0 := by omega
        rw [if_neg hne] at h
        cases h
        exact hp
      · cases h

theorem noPanic_run {W : Nat} {events : List (Event Commit)}
    (hok : ∀ e ∈ events, ∃ m, eventFormatter e = .ok m) (sched : List Action) :
    ∀ {s t : State Commit}, Inv W events s → s.panicked = none →
      run W events s sched = some t → t.panicked = none := by
  induction sched with
  | nil =>
    intro s t _ hp h
    simp only [run, Option.some.injEq] at h
    exact h ▸ hp
  | cons a rest ih =>
    intro s t hI hp h
    simp only [run] at h
    cases hs : step W events s a with
    | none => simp [hs] at h
    | some u =>
      simp only [hs, Option.bind] at h
      exact ih (inv_step hI hs) (step_noPanic hok hI hs) h

theorem worker_enabled {W : Nat} {events : List (Event Commit)} {s : State Commit} {j : Nat}
    {w : WorkerPc Commit} (hI : Inv W events s) (hj : s.workers[j]? = some w)
    (halive : w.alive = 1) (hrecv : w = .recv → s.eventsClosed = true) :
    ∃ t, stepWorker events s j = some t := by
  cases w with
  | recv =>
    simp only [stepWorker, hj, hrecv rfl, if_true]
    exact ⟨_, rfl⟩
  | format e =>
    cases hf : eventFormatter e with
    | error p =>
      simp only [stepWorker, hj, hf]
      exact ⟨_, rfl⟩
    | ok message =>
      by_cases hnil : message = []
      · simp only [stepWorker, hj, hf, if_pos hnil]
        exact ⟨_, rfl⟩
      · simp only [stepWorker, hj, hf, if_neg hnil]
        exact ⟨_, rfl⟩
  | send message =>
    have hcap := owes_le_batch hI hj
    have hle := lines_le events
    have hlt : s.results.length < events.length := by
      simp only [WorkerPc.owes, List.length_singleton] at hcap
      omega
    have hopen := open_of_alive hI hj rfl
    simp only [stepWorker, hj, hopen, Bool.false_eq_true, if_false, if_pos hlt]
    exact ⟨_, rfl⟩
  | leave =>
    have hpos := alive_pos hI hj rfl
    have hne : ¬ s.wg = 0 := by omega
    simp only [stepWorker, hj, if_neg hne]
    exact ⟨_, rfl⟩
  | exited => simp [WorkerPc.alive] at halive

theorem exists_alive {l : List (WorkerPc Commit)} (h : 1 ≤ (l.map WorkerPc.alive).sum) :
    ∃ j : Nat, ∃ w : WorkerPc Commit, l[j]? = some w ∧ w.alive = 1 := by
  induction l with
  | nil => simp at h
  | cons x xs ih =>
    by_cases hx : x.alive = 1
    · exact ⟨0, x, List.getElem?_cons_zero, hx⟩
    · have hx0 : x.alive = 0 := by
        cases x <;> simp [WorkerPc.alive] at hx ⊢
      simp only [List.map_cons, List.sum_cons, hx0, zero_add] at h
      obtain ⟨j, w, hj, hw⟩ := ih h
      exact ⟨j + 1, w, by rw [List.getElem?_cons_succ]; exact hj, hw⟩

theorem progress {W : Nat} {events : List (Event Commit)} {s : State Commit}
    (hW : 1 ≤ W ∨ events = []) (hI : Inv W events s) (hp : s.panicked = none)
    (hm : s.main ≠ .done) : ∃ a t, step W events s a = some t := by
  cases hmain : s.main with
  | spawn i =>
    refine ⟨.main, ?_⟩
    rw [step_of_guard hp hm]
    simp only [stepMain, hmain]
    split <;> exact ⟨_, rfl⟩
  | dispatch k =>
    by_cases hk : k < events.length
    · have hW1 : 1 ≤ W := by
        rcases hW with h | h
        · exact h
        · rw [h] at hk
          simp at hk
      have hlen : s.workers.length = W := by
        have := hI.started
        rw [hmain] at this
        exact this.1
      have hopen : s.eventsClosed = false := hI.feeding.mp (by rw [hmain]; trivial)
      have h0 : 0 < s.workers.length := by omega
      have hj : s.workers[0]? = some s.workers[0] := List.getElem?_eq_getElem h0
      have hloop := hI.inLoop hopen _ (List.getElem?_mem hj)
      cases hw : s.workers[0] with
      | recv =>
        rw [hw] at hj
        refine ⟨.handOver 0, ?_⟩
        rw [step_of_guard hp hm]
        simp only [stepHandOver, hmain, hj, List.getElem?_eq_getElem hk]
        exact ⟨_, rfl⟩
      | format e =>
        rw [hw] at hj
        obtain ⟨t, ht⟩ := worker_enabled hI hj rfl (fun h => by cases h)
        exact ⟨.worker 0, t, by rw [step_of_guard hp hm]; exact ht⟩
      | send message =>
        rw [hw] at hj
        obtain ⟨t, ht⟩ := worker_enabled hI hj rfl (fun h => by cases h)
        exact ⟨.worker 0, t, by rw [step_of_guard hp hm]; exact ht⟩
      | leave => rw [hw] at hloop; exact absurd hloop (by simp [WorkerPc.inLoop])
      | exited => rw [hw] at hloop; exact absurd hloop (by simp [WorkerPc.inLoop])
    · refine ⟨.main, ?_⟩
      rw [step_of_guard hp hm]
      simp only [stepMain, hmain, if_neg hk]
      exact ⟨_, rfl⟩
  | startCloser =>
    refine ⟨.main, ?_⟩
    rw [step_of_guard hp hm]
    simp only [stepMain, hmain]
    exact ⟨_, rfl⟩
  | collect =>
    have hclosedEv : s.eventsClosed = true := by
      cases hc : s.eventsClosed with
      | true => rfl
      | false =>
        have := hI.feeding.mpr hc
        rw [hmain] at this
        exact absurd this (by simp [MainPc.feeding])
    cases hr : s.results with
    | cons msg rest =>
      refine ⟨.main, ?_⟩
      rw [step_of_guard hp hm]
      simp only [stepMain, hmain, hr]
      exact ⟨_, rfl⟩
    | nil =>
      cases hrc : s.resultsClosed with
      | true =>
        refine ⟨.main, ?_⟩
        rw [step_of_guard hp hm]
        simp only [stepMain, hmain, hr, hrc, if_true]
        exact ⟨_, rfl⟩
      | false =>
        by_cases hwg : s.wg = 0
        · cases hc : s.closer with
          | idle =>
            have := hI.closerIdle.mpr hc
            rw [hmain] at this
            exact absurd this (by simp [MainPc.beforeCloser])
          | wait =>
            refine ⟨.closer, ?_⟩
            rw [step_of_guard hp hm]
            simp only [stepCloser, hc, if_pos hwg]
            exact ⟨_, rfl⟩
          | close =>
            refine ⟨.closer, ?_⟩
            rw [step_of_guard hp hm]
            simp only [stepCloser, hc]
            exact ⟨_, rfl⟩
          | exited =>
            have := hI.closed.mpr hc
            rw [hrc] at this
            cases this
        · have hsum : 1 ≤ (s.workers.map WorkerPc.alive).sum := by
            rw [← hI.counter]
            omega
          obtain ⟨j, w, hj, hw⟩ := exists_alive hsum
          obtain ⟨t, ht⟩ := worker_enabled hI hj hw (fun _ => hclosedEv)
          exact ⟨.worker j, t, by rw [step_of_guard hp hm]; exact ht⟩
  | done => exact absurd hmain hm

theorem exists_complete {W : Nat} {events : List (Event Commit)}
    (hW : 1 ≤ W ∨ events = []) (hok : ∀ e ∈ events, ∃ m, eventFormatter e = .ok m) :
    ∀ (n : Nat) (s : State Commit), stepsLeft W events s ≤ n → Inv W events s →
      s.panicked = none → ∃ sched t, run W events s sched = some t ∧ t.main = .done := by
  intro n
  induction n with
  | zero =>
    intro s hn hI hp
    by_cases hm : s.main = .done
    · exact ⟨[], s, rfl, hm⟩
    · obtain ⟨a, t, ht⟩ := progress hW hI hp hm
      have := stepsLeft_step ht
      omega
  | succ n ih =>
    intro s hn hI hp
    by_cases hm : s.main = .done
    · exact ⟨[], s, rfl, hm⟩
    · obtain ⟨a, t, ht⟩ := progress hW hI hp hm
      have hlt := stepsLeft_step ht
      obtain ⟨sched, u, hu, hd⟩ := ih t (by omega) (inv_step hI ht) (step_noPanic hok hI ht)
      exact ⟨a :: sched, u, by simp only [run, ht, Option.bind, hu], hd⟩

/-! ## The pipeline claims -/

theorem owes_of_not_alive {l : List (WorkerPc Commit)} (h : (l.map WorkerPc.alive).sum = 0) :
    (∀ w ∈ l, w = .exited) ∧
      (l.map fun w => ((WorkerPc.owes w : List GoString) : Multiset GoString)).sum = 0 := by
  induction l with
  | nil => simp
  | cons x xs ih =>
    simp only [List.map_cons, List.sum_cons] at h
    have hx : x.alive = 0 := by omega
    have hxs : (xs.map WorkerPc.alive).sum = 0 := by omega
    have hex : x = .exited := by
      cases x <;> simp [WorkerPc.alive] at hx ⊢
    obtain ⟨h1, h2⟩ := ih hxs
    subst hex
    constructor
    · intro w hw
      rcases List.mem_cons.mp hw with rfl | hw
      · rfl
      · exact h1 w hw
    · have h0 : (((WorkerPc.exited : WorkerPc Commit).owes : List GoString) : Multiset GoString) = 0 :=
        rfl
      simp only [List.map_cons, List.sum_cons, h2, h0, add_zero]

theorem closed_facts {W : Nat} {events : List (Event Commit)} {s : State Commit}
    (hI : Inv W events s) (hc : s.closer = .close ∨ s.closer = .exited) :
    s.workers.length = W ∧ (∀ w ∈ s.workers, w = .exited) ∧ s.wg = 0 ∧
      s.eventsClosed = true ∧
      (s.workers.map fun w => ((WorkerPc.owes w : List GoString) : Multiset GoString)).sum = 0 ∧
      dispatched events s = events.length := by
  have hwg := hI.waited hc
  have hsum : (s.workers.map WorkerPc.alive).sum = 0 := by rw [← hI.counter]; exact hwg
  obtain ⟨hall, howes⟩ := owes_of_not_alive hsum
  have hidle : ¬ s.closer = .idle := by
    rcases hc with h | h <;> rw [h] <;> simp
  have hbc : ¬ s.main.beforeCloser := fun h => hidle (hI.closerIdle.mp h)
  have hst := hI.started
  have hfe := hI.feeding
  cases hm : s.main with
  | spawn i => rw [hm] at hbc; exact absurd trivial hbc
  | dispatch k => rw [hm] at hbc; exact absurd trivial hbc
  | startCloser => rw [hm] at hbc; exact absurd trivial hbc
  | collect =>
    rw [hm] at hst hfe
    refine ⟨hst, hall, hwg, ?_, howes, by simp [dispatched, hm]⟩
    cases he : s.eventsClosed with
    | true => rfl
    | false => exact absurd (hfe.mpr he) (by simp [MainPc.feeding])
  | done =>
    rw [hm] at hst hfe
    refine ⟨hst, hall, hwg, ?_, howes, by simp [dispatched, hm]⟩
    cases he : s.eventsClosed with
    | true => rfl
    | false => exact absurd (hfe.mpr he) (by simp [MainPc.feeding])

theorem collected_done {W : Nat} {events : List (Event Commit)} {s : State Commit}
    (hI : Inv W events s) (hd : s.main = .done) : s.collected.Perm (linesOf events) := by
  obtain ⟨hrc, hres⟩ := hI.finished hd
  obtain ⟨-, -, -, -, howes, hdis⟩ := closed_facts hI (Or.inr (hI.closed.mp hrc))
  have h := hI.conserve
  rw [howes, hdis, hres, List.drop_length] at h
  simp only [linesOf, List.filterMap_nil, Multiset.coe_nil, add_zero] at h
  exact Multiset.coe_eq_coe.mp h

theorem sent_le {W : Nat} {events : List (Event Commit)} {s : State Commit}
    (hI : Inv W events s) : s.collected.length + s.results.length ≤ (linesOf events).length := by
  have h1 := congrArg Multiset.card hI.conserve
  simp only [Multiset.card_add, Multiset.coe_card] at h1
  omega

/-- The only step that closes `resultsCh` is the `close(resultsCh)` of the
closer; it changes nothing else but the position of the closer. -/
theorem close_step {W : Nat} {events : List (Event Commit)} {s t : State Commit} {a : Action}
    (h : step W events s a = some t) (hs : s.resultsClosed = false)
    (ht : t.resultsClosed = true) :
    a = .closer ∧ s.closer = .close := by
  unfold step at h
  split at h
  · cases h
  · cases a with
    | main =>
      simp only [stepMain] at h
      repeat' split at h
      all_goals first | (cases h; rw [hs] at ht; cases ht) | cases h
    | handOver j =>
      simp only [stepHandOver] at h
      repeat' split at h
      all_goals first | (cases h; rw [State.setWorker, hs] at ht; cases ht) | cases h
    | direct j =>
      simp only [stepDirect] at h
      repeat' split at h
      all_goals first | (cases h; rw [State.setWorker, hs] at ht; cases ht) | cases h
    | worker j =>
      simp only [stepWorker] at h
      repeat' split at h
      all_goals first | (cases h; simp only [State.setWorker, hs] at ht; cases ht) | cases h
    | closer =>
      simp only [stepCloser] at h
      split at h
      · cases h
      · split at h
        · cases h; rw [hs] at ht; cases ht
        · cases h
      · rename_i hc
        exact ⟨rfl, hc⟩
      · cases h

theorem noPanic_reachable {W : Nat} {events : List (Event Commit)}
    (hok : ∀ e ∈ events, ∃ m, eventFormatter e = .ok m) {s : State Commit}
    (h : Reachable W events s) : s.panicked = none := by
  obtain ⟨sched, hs⟩ := h
  exact noPanic_run hok sched (inv_init W events) rfl hs

theorem sampleBatch_ok : ∀ e ∈ sampleBatch, ∃ m, eventFormatter e = .ok m := by
  intro e he
  simp only [sampleBatch, List.mem_cons, List.mem_singleton, List.not_mem_nil, or_false] at he
  rcases he with rfl | rfl | rfl | rfl | rfl | rfl <;> exact ⟨_, rfl⟩

/-- C4: for a batch on which the formatter does not panic and a pool of
`W ≥ 1` workers, under every schedule: a run takes at most `4·K + 3·W + 7`
steps, a run that has not ended can always go on, some run ends, and in every
ended run the lines the collector received are a permutation of the non-empty
formatter results of the batch (so as many as there are such events), hence
the same multiset as in any ended run of any other pool size. -/
theorem C4_lines_multiset (W : Nat) (events : List (Event Commit)) (hW : 1 ≤ W)
    (hok : ∀ e ∈ events, ∃ m, eventFormatter e = .ok m) :
    (∀ sched s, run W events State.init sched = some s →
        sched.length ≤ 4 * events.length + 3 * W + 7) ∧
      (∀ s, Reachable W events s → s.main ≠ .done → ∃ a t, step W events s a = some t) ∧
      (∃ s, Reachable W events s ∧ s.main = .done) ∧
      (∀ s, Reachable W events s → s.main = .done →
        s.panicked = none ∧ s.collected.Perm (linesOf events) ∧
          s.collected.length = (linesOf events).length ∧
          ∀ W2 s2, 1 ≤ W2 → Reachable W2 events s2 → s2.main = .done →
            s.collected.Perm s2.collected) := by
  refine ⟨?_, ?_, ?_, ?_⟩
  · intro sched s hs
    have := stepsLeft_run sched hs
    rw [stepsLeft_init] at this
    omega
  · intro s hs hm
    exact progress (Or.inl hW) (inv_reachable hs) (noPanic_reachable hok hs) hm
  · obtain ⟨sched, t, ht, hd⟩ :=
      exists_complete (Or.inl hW) hok _ State.init (Nat.le_refl _) (inv_init W events) rfl
    exact ⟨t, ⟨sched, ht⟩, hd⟩
  · intro s hs hd
    have hperm := collected_done (inv_reachable hs) hd
    refine ⟨noPanic_reachable hok hs, hperm, hperm.length_eq, ?_⟩
    intro W2 s2 _ hs2 hd2
    exact hperm.trans (collected_done (inv_reachable hs2) hd2).symm

/-- C4 (witness): the claim at `sampleBatch` with the four workers of `main`. -/
theorem C4_lines_multiset_witness :
    1 ≤ numWorkers ∧ (∀ e ∈ sampleBatch, ∃ m, eventFormatter e = .ok m) ∧
      ((∀ sched s, run numWorkers sampleBatch State.init sched = some s →
          sched.length ≤ 4 * sampleBatch.length + 3 * numWorkers + 7) ∧
        (∀ s, Reachable numWorkers sampleBatch s → s.main ≠ .done →
          ∃ a t, step numWorkers sampleBatch s a = some t) ∧
        (∃ s, Reachable numWorkers sampleBatch s ∧ s.main = .done) ∧
        (∀ s, Reachable numWorkers sampleBatch s → s.main = .done →
          s.panicked = none ∧ s.collected.Perm (linesOf sampleBatch) ∧
            s.collected.length = (linesOf sampleBatch).length ∧
            ∀ W2 s2, 1 ≤ W2 → Reachable W2 sampleBatch s2 → s2.main = .done →
              s.collected.Perm s2.collected)) :=
  ⟨by decide, sampleBatch_ok, C4_lines_multiset numWorkers sampleBatch (by decide) sampleBatch_ok⟩

/-- C5: in every reachable state of every run, for every batch and pool size:
if `resultsCh` is closed then all `W` workers have been started and have
returned, each having run `wg.Done()` (the counter is 0), and `eventsCh` is
closed; the step that closes `resultsCh` is the closer's, taken in a state
where this already holds; the collector loop has ended only if `resultsCh` is
closed and drained.  For the empty batch the collector never receives a line,
no panic occurs, a run that has not ended can always go on, and every run
takes at most `3·W + 7` steps. -/
theorem C5_shutdown_order (W : Nat) (events : List (Event Commit)) :
    (∀ s, Reachable W events s → s.resultsClosed = true →
        s.workers.length = W ∧ (∀ w ∈ s.workers, w = .exited) ∧ s.wg = 0 ∧
          s.eventsClosed = true) ∧
      (∀ s a t, Reachable W events s → step W events s a = some t →
        s.resultsClosed = false → t.resultsClosed = true →
          a = .closer ∧ s.workers.length = W ∧ (∀ w ∈ s.workers, w = .exited) ∧ s.wg = 0 ∧
            t.workers = s.workers) ∧
      (∀ s, Reachable W events s → s.main = .done →
        s.resultsClosed = true ∧ s.results = []) ∧
      (∀ s, Reachable W ([] : List (Event Commit)) s →
        s.collected = [] ∧ s.results = [] ∧ s.panicked = none ∧
          (s.main ≠ .done → ∃ a t, step W ([] : List (Event Commit)) s a = some t)) ∧
      (∀ sched s, run W ([] : List (Event Commit)) State.init sched = some s →
        sched.length ≤ 3 * W + 7) := by
  refine ⟨?_, ?_, ?_, ?_, ?_⟩
  · intro s hs hc
    have hI := inv_reachable hs
    obtain ⟨h1, h2, h3, h4, -, -⟩ := closed_facts hI (Or.inr (hI.closed.mp hc))
    exact ⟨h1, h2, h3, h4⟩
  · intro s a t hs hst hc ht
    have hI := inv_reachable hs
    obtain ⟨ha, hcl⟩ := close_step hst hc ht
    obtain ⟨h1, h2, h3, -, -, -⟩ := closed_facts hI (Or.inl hcl)
    refine ⟨ha, h1, h2, h3, ?_⟩
    subst ha
    unfold step at hst
    split at hst
    · cases hst
    · simp only [stepCloser, hcl] at hst
      cases hst
      rfl
  · intro s hs hd
    exact (inv_reachable hs).finished hd
  · intro s hs
    have hI := inv_reachable hs
    have hok : ∀ e ∈ ([] : List (Event Commit)), ∃ m, eventFormatter e = .ok m := by
      intro e he
      cases he
    have hp := noPanic_reachable hok hs
    have hlen := sent_le hI
    simp only [linesOf, List.filterMap_nil, List.length_nil, Nat.le_zero,
      Nat.add_eq_zero_iff, List.length_eq_zero] at hlen
    exact ⟨hlen.1, hlen.2, hp, fun hm => progress (Or.inr rfl) hI hp hm⟩
  · intro sched s hs
    have := stepsLeft_run sched hs
    rw [stepsLeft_init] at this
    simp only [List.length_nil] at this
    omega

/-- C10: for a batch on which the formatter does not panic, the events with a
non-empty result are at most the events of the batch, and in every reachable
state the messages sent so far (collected or buffered) are at most that many,
the buffer of `resultsCh` holds at most `len(events)` messages, and a worker
standing at `resultsCh <- message` finds room in the buffer: its send step
runs at once and appends the message. -/
theorem C10_results_capacity (W : Nat) (events : List (Event Commit))
    (hok : ∀ e ∈ events, ∃ m, eventFormatter e = .ok m) :
    (linesOf events).length ≤ events.length ∧
      ∀ s, Reachable W events s →
        s.collected.length + s.results.length ≤ (linesOf events).length ∧
          s.results.length ≤ events.length ∧
          ∀ (j : Nat) (message : GoString), s.workers[j]? = some (.send message) →
            s.results.length < events.length ∧
              step W events s (.worker j)
                = some { s.setWorker j .recv with results := s.results ++ [message] } := by
  refine ⟨lines_le events, ?_⟩
  intro s hs
  have hI := inv_reachable hs
  have hsent := sent_le hI
  have hle := lines_le events
  refine ⟨hsent, by omega, ?_⟩
  intro j message hj
  have hcap := owes_le_batch hI hj
  have hlt : s.results.length < events.length := by
    simp only [WorkerPc.owes, List.length_singleton] at hcap
    omega
  have hopen := open_of_alive hI hj rfl
  have hm : s.main ≠ .done := by
    intro hd
    have := (hI.finished hd).1
    rw [hopen] at this
    cases this
  refine ⟨hlt, ?_⟩
  rw [step_of_guard (noPanic_reachable hok hs) hm]
  simp only [stepWorker, hj, hopen, Bool.false_eq_true, if_false, if_pos hlt]

/-- C10 (witness): the claim at `sampleBatch` with the four workers of `main`. -/
theorem C10_results_capacity_witness :
    (∀ e ∈ sampleBatch, ∃ m, eventFormatter e = .ok m) ∧
      ((linesOf sampleBatch).length ≤ sampleBatch.length ∧
        ∀ s, Reachable numWorkers sampleBatch s →
          s.collected.length + s.results.length ≤ (linesOf sampleBatch).length ∧
            s.results.length ≤ sampleBatch.length ∧
            ∀ (j : Nat) (message : GoString), s.workers[j]? = some (.send message) →
              s.results.length < sampleBatch.length ∧
                step numWorkers sampleBatch s (.worker j)
                  = some { s.setWorker j .recv with results := s.results ++ [message] }) :=
  ⟨sampleBatch_ok, C10_results_capacity numWorkers sampleBatch sampleBatch_ok⟩

/-- A complete run of the program on `sampleBatch` with four workers: the
collector receives the four non-empty lines, in an order that differs from the
order of the batch. -/
theorem sampleSchedule_run :
    (run numWorkers sampleBatch State.init sampleSchedule).map
        (fun s => (s.main, s.collected, s.results, s.wg, s.panicked))
      = some (.done,
          [str "\x1b[32mForked\x1b[0m foo/bar", str "\x1b[33mOpened\x1b[0m an issue in foo/bar",
            str "Pushed \x1b[34m2 commits\x1b[0m to foo/bar", str "\x1b[32mStarred\x1b[0m foo/bar"],
          [], 0, none) := by
  rfl

/-- On the way of `sampleSchedule`, after ten actions, `main` has sent four
events and is still sending, the buffer of `resultsCh` is empty, and each of
the four workers owes one line (worker 0 has formatted its event and stands at
`resultsCh <- message`). -/
theorem sampleSchedule_send :
    (run numWorkers sampleBatch State.init (sampleSchedule.take 10)).map
        (fun s => (s.main, s.workers.map WorkerPc.owes, s.results))
      = some (.dispatch 4,
          [[str "\x1b[32mForked\x1b[0m foo/bar"], [str "\x1b[33mOpened\x1b[0m an issue in foo/bar"],
            [str "Pushed \x1b[34m2 commits\x1b[0m to foo/bar"],
            [str "\x1b[32mStarred\x1b[0m foo/bar"]],
          []) := by
  rfl

/-- Without a worker a non-empty batch is never sent: after `main` has left the
start loop no action can run, and `main` has not returned. -/
theorem no_worker_stuck :
    ∃ s, run 0 [ev "WatchEvent" "foo/bar" "" 0] State.init [.main] = some s ∧
      s.main = .dispatch 0 ∧ ∀ a, step 0 [ev "WatchEvent" "foo/bar" "" 0] s a = none := by
  refine ⟨{ (State.init : State Unit) with main := .dispatch 0 }, rfl, rfl, ?_⟩
  intro a
  cases a <;> simp [step, stepMain, stepHandOver, stepWorker, stepDirect, stepCloser, State.init]

end GitUserAct
